import Mathlib

/-
Verification development for the mincepie single-coordinator MapReduce engine.

Python dictionaries are embedded as insertion-ordered association lists:
assignment to a fresh key appends at the end, assignment to an existing key
updates in place, matching CPython dict semantics for the operations the
coordinator performs.  Wall-clock timestamps are modelled as natural numbers
supplied explicitly to each operation.
-/

namespace Mince

variable {α : Type} {β : Type}

/-! ## Association lists: the embedding of Python dict -/

/-- Dictionary lookup: the value at the first occurrence of the key. -/
def alookup [DecidableEq α] : List (α × β) → α → Option β
  | [], _ => none
  | p :: ps, k => if p.1 = k then some p.2 else alookup ps k

/-- Dictionary lookup with a default value. -/
def alookupD [DecidableEq α] (l : List (α × β)) (k : α) (d : β) : β :=
  (alookup l k).getD d

/-- Membership test, the embedding of the Python expression k in d. -/
def containsKey [DecidableEq α] : List (α × β) → α → Bool
  | [], _ => false
  | p :: ps, k => if p.1 = k then true else containsKey ps k

/-- Dictionary assignment d[k] = v: update in place if present, else append. -/
def setKey [DecidableEq α] : List (α × β) → α → β → List (α × β)
  | [], k, v => [(k, v)]
  | p :: ps, k, v => if p.1 = k then (k, v) :: ps else p :: setKey ps k v

/-- Dictionary deletion del d[k]: removes the entry holding the key. -/
def eraseKey [DecidableEq α] : List (α × β) → α → List (α × β)
  | [], _ => []
  | p :: ps, k => if p.1 = k then ps else p :: eraseKey ps k

/-! ## The task manager (mince.TaskManager)

Type parameters: K and V are input keys and values, Kp and Vp are
intermediate keys and values, W is the type of reducer outputs. -/

/-- The TASK enum of mince.py. -/
inductive TASK where
  | START
  | MAPPING
  | REDUCING
  | FINISHED
deriving DecidableEq

/-- A command returned by next_task, together with its payload. -/
inductive TaskCmd (K V Kp Vp : Type) where
  | map (k : K) (v : V)
  | reduce (k : Kp) (vs : List Vp)
  | disconnect
deriving DecidableEq

/-- State of mince.TaskManager.  The fields map_iter and reduce_iter embed
the Python iterators iter(datasource) and map_results.iteritems() as the
lists of their remaining elements; before the phase that creates them they
are empty placeholders, standing for attributes that do not exist yet. -/
structure TaskManager (K V Kp Vp W : Type) where
  datasource : List (K × V)
  num_maps : Nat
  num_done_maps : Nat
  state : TASK
  next_report_point : Nat
  report_interval : Nat
  map_iter : List K
  working_maps : List (K × Nat)
  map_results : List (Kp × List Vp)
  reduce_iter : List (Kp × List Vp)
  working_reduces : List (Kp × Nat)
  results : List (Kp × W)
deriving DecidableEq

variable {K V Kp Vp W : Type}

/-- TaskManager.__init__: num_maps = len(datasource.keys()), state START,
next_report_point = FLAGS.report_interval. -/
def initTM (ds : List (K × V)) (ri : Nat) : TaskManager K V Kp Vp W :=
  { datasource := ds
    num_maps := (ds.map Prod.fst).length
    num_done_maps := 0
    state := TASK.START
    next_report_point := ri
    report_interval := ri
    map_iter := []
    working_maps := []
    map_results := []
    reduce_iter := []
    working_reduces := []
    results := [] }

/-- The Python expression min(d, key=d.get) on a non-empty dict d, as the
fold that keeps the current best pair and replaces it only on a strictly
smaller value, so the first key attaining the minimal value wins. -/
def pyMinPair (hd : α × Nat) (tl : List (α × Nat)) : α × Nat :=
  tl.foldl (fun best p => if p.2 < best.2 then p else best) hd

/-- The key selected by min(d, key=d.get). -/
def pyMin (hd : α × Nat) (tl : List (α × Nat)) : α :=
  (pyMinPair hd tl).1

/-- The START block of next_task: initialize the map-phase fields and
advance to MAPPING, leaving any other state alone; the caller then falls
through into the state tests below. -/
def start_block (tm : TaskManager K V Kp Vp W) : TaskManager K V Kp Vp W :=
  if tm.state = TASK.START then
    { tm with map_iter := tm.datasource.map Prod.fst
              working_maps := []
              map_results := []
              state := TASK.MAPPING }
  else tm

/-- The REDUCING block of next_task, shared by the fall-through from an
exhausted MAPPING and by a call that starts in REDUCING; its own
fall-through is the FINISHED block, which asks the coordinator to close
its listener (third component true) and returns disconnect. -/
def reducing_block [DecidableEq Kp] (tm : TaskManager K V Kp Vp W)
    (now : Nat) : TaskCmd K V Kp Vp × TaskManager K V Kp Vp W × Bool :=
  match tm.reduce_iter with
  | item :: rest =>
    (TaskCmd.reduce item.1 item.2,
     { tm with reduce_iter := rest
               working_reduces := setKey tm.working_reduces item.1 now },
     false)
  | [] =>
    match tm.working_reduces with
    | p :: ps =>
      (TaskCmd.reduce (pyMin p ps) (alookupD tm.map_results (pyMin p ps) []),
       { tm with working_reduces := setKey tm.working_reduces (pyMin p ps) now },
       false)
    | [] =>
      (TaskCmd.disconnect, { tm with state := TASK.FINISHED }, true)

/-- The MAPPING, REDUCING and FINISHED blocks of next_task, run after the
START block: assign the next datasource key, or reassign the oldest
outstanding map, or fall through to the reduce phase. -/
def next_task_from [DecidableEq K] [DecidableEq Kp] [Inhabited V]
    (tm : TaskManager K V Kp Vp W) (now : Nat) :
    TaskCmd K V Kp Vp × TaskManager K V Kp Vp W × Bool :=
  if tm.state = TASK.MAPPING then
    match tm.map_iter with
    | map_key :: rest =>
      (TaskCmd.map map_key (alookupD tm.datasource map_key default),
       { tm with map_iter := rest
                 working_maps := setKey tm.working_maps map_key now },
       false)
    | [] =>
      match tm.working_maps with
      | p :: ps =>
        (TaskCmd.map (pyMin p ps) (alookupD tm.datasource (pyMin p ps) default),
         { tm with working_maps := setKey tm.working_maps (pyMin p ps) now },
         false)
      | [] =>
        reducing_block
          { tm with state := TASK.REDUCING
                    reduce_iter := tm.map_results
                    working_reduces := []
                    results := [] }
          now
  else if tm.state = TASK.REDUCING then
    reducing_block tm now
  else
    (TaskCmd.disconnect, tm, true)

/-- TaskManager.next_task.  Returns the command sent to the asking worker,
the successor task-manager state, and whether server.handle_close was
invoked.  now stands for time.time().  The START block initializes the map
phase and falls through; an exhausted MAPPING falls through into REDUCING,
which can fall through into FINISHED, all within the single call, because
in the source the state tests are consecutive independent if statements. -/
def next_task [DecidableEq K] [DecidableEq Kp] [Inhabited V]
    (tm0 : TaskManager K V Kp Vp W) (now : Nat) :
    TaskCmd K V Kp Vp × TaskManager K V Kp Vp W × Bool :=
  next_task_from (start_block tm0) now

/-- One pass of the shuffle loop body in map_done: append values to the
bucket of key, creating an empty bucket first when the key is new (a fresh
dict key is appended at the end of the insertion order). -/
def extendBucket [DecidableEq Kp] :
    List (Kp × List Vp) → Kp → List Vp → List (Kp × List Vp)
  | [], key, values => [(key, values)]
  | p :: ps, key, values =>
    if p.1 = key then (p.1, p.2 ++ values) :: ps
    else p :: extendBucket ps key values

/-- The shuffle loop of map_done: for (key, values) in data[1].iteritems(),
extend map_results[key] by values. -/
def shuffle [DecidableEq Kp] (mr : List (Kp × List Vp)) :
    List (Kp × List Vp) → List (Kp × List Vp)
  | [] => mr
  | (key, values) :: rest => shuffle (extendBucket mr key values) rest

/-- TaskManager.map_done.  data carries the map key and the map output
dict, or none when data[1] is None.  A result whose key is no longer in
working_maps is dropped without touching any field.  The progress
percentage uses natural division; its Python counterpart raises
ZeroDivisionError when num_maps = 0, which the reachability theorem below
shows cannot happen on that line. -/
def map_done [DecidableEq K] [DecidableEq Kp] (tm : TaskManager K V Kp Vp W)
    (data : K × Option (List (Kp × List Vp))) : TaskManager K V Kp Vp W :=
  if containsKey tm.working_maps data.1 then
    let tm1 := { tm with num_done_maps := tm.num_done_maps + 1 }
    let pct := tm1.num_done_maps * 100 / tm1.num_maps
    let tm2 :=
      if tm1.next_report_point ≤ pct then
        { tm1 with next_report_point := tm1.next_report_point + tm1.report_interval }
      else tm1
    let tm3 :=
      match data.2 with
      | some mo => { tm2 with map_results := shuffle tm2.map_results mo }
      | none => tm2
    { tm3 with working_maps := eraseKey tm3.working_maps data.1 }
  else tm

/-- TaskManager.reduce_done.  data carries the reduce key and the reducer
output, or none when data[1] is None, in which case results is left
untouched.  A result whose key is no longer in working_reduces is
dropped. -/
def reduce_done [DecidableEq Kp] (tm : TaskManager K V Kp Vp W)
    (data : Kp × Option W) : TaskManager K V Kp Vp W :=
  if containsKey tm.working_reduces data.1 then
    let tm1 :=
      match data.2 with
      | some v => { tm with results := setKey tm.results data.1 v }
      | none => tm
    { tm1 with working_reduces := eraseKey tm1.working_reduces data.1 }
  else tm

/-- Task-manager states reachable from TaskManager.__init__ under any
interleaving of next_task, map_done and reduce_done calls with arbitrary
arguments, as driven by any population of worker channels. -/
inductive ReachTM [DecidableEq K] [DecidableEq Kp] [Inhabited V]
    (ds : List (K × V)) (ri : Nat) : TaskManager K V Kp Vp W → Prop where
  | init : ReachTM ds ri (initTM ds ri)
  | step_next (tm : TaskManager K V Kp Vp W) (now : Nat) :
      ReachTM ds ri tm → ReachTM ds ri (next_task tm now).2.1
  | step_map (tm : TaskManager K V Kp Vp W)
      (d : K × Option (List (Kp × List Vp))) :
      ReachTM ds ri tm → ReachTM ds ri (map_done tm d)
  | step_reduce (tm : TaskManager K V Kp Vp W) (d : Kp × Option W) :
      ReachTM ds ri tm → ReachTM ds ri (reduce_done tm d)

/-- A sequence of map results each of which is accepted: when it is applied,
its key is still in working_maps of the task-manager state of that moment. -/
def allAcceptedMaps [DecidableEq K] [DecidableEq Kp] :
    TaskManager K V Kp Vp W → List (K × Option (List (Kp × List Vp))) → Prop
  | _, [] => True
  | tm, d :: rest =>
    containsKey tm.working_maps d.1 = true ∧ allAcceptedMaps (map_done tm d) rest

/-- A sequence of reduce results each of which is accepted when applied. -/
def allAcceptedReduces [DecidableEq Kp] :
    TaskManager K V Kp Vp W → List (Kp × Option W) → Prop
  | _, [] => True
  | tm, d :: rest =>
    containsKey tm.working_reduces d.1 = true ∧
      allAcceptedReduces (reduce_done tm d) rest

/-- The values a single map output contributes to the bucket of key: the
concatenation of the value lists its entries hold under that key (for a
dict-shaped output with unique keys this is just its lookup). -/
def valuesFor [DecidableEq Kp] (key : Kp)
    (mo : Option (List (Kp × List Vp))) : List Vp :=
  match mo with
  | none => []
  | some m => ((m.filter fun p => decide (p.1 = key)).map Prod.snd).flatten

/-! ## The worker execution loop (mince.Client) -/

/-- The grouping loop of Client.call_map: iterate the pairs the mapper
yields, skip a yielded None, and append each value to the bucket of its
key, creating the bucket on KeyError.  Appending one value is extending by
the one-element list. -/
def groupPairs [DecidableEq Kp] (pairs : List (Option (Kp × Vp))) :
    List (Kp × List Vp) :=
  pairs.foldl
    (fun acc kv =>
      match kv with
      | none => acc
      | some (key, val) => extendBucket acc key [val])
    []

/-- mapreducer.IdentityMapper.map: yield key, value. -/
def identityMapper (k : K) (v : V) : List (Option (K × V)) := [some (k, v)]

/-- mapreducer.IdentityReducer.reduce: return values; a Python return value
that is not None is a present output. -/
def identityReducer (_key : Kp) (values : List Vp) : Option (List Vp) :=
  some values

/-- A sequential single-worker run driven for fuel rounds: each round asks
next_task, then immediately completes the returned assignment, calling the
mapper through the call_map grouping for a map command and the reducer for
a reduce command, and returning the result to the task manager; the run
stops on disconnect.  Every map task is completed exactly once on this
schedule.  Timestamps are irrelevant here and passed as 0. -/
def runSeq [DecidableEq K] [DecidableEq Kp] [Inhabited V]
    (mapper : K → V → List (Option (Kp × Vp)))
    (reducer : Kp → List Vp → Option W) :
    Nat → TaskManager K V Kp Vp W → TaskManager K V Kp Vp W
  | 0, tm => tm
  | fuel + 1, tm =>
    match next_task tm 0 with
    | (TaskCmd.map k v, tm1, _) =>
      runSeq mapper reducer fuel (map_done tm1 (k, some (groupPairs (mapper k v))))
    | (TaskCmd.reduce k vs, tm1, _) =>
      runSeq mapper reducer fuel (reduce_done tm1 (k, reducer k vs))
    | (TaskCmd.disconnect, tm1, _) => tm1

/-! ## The wire protocol state of one connection (mince.Protocol) -/

/-- Which subclass owns the connection: a coordinator-side ServerChannel or
a worker-side Client.  They differ in process_command handlers and in
post_auth_init. -/
inductive Side where
  | server
  | client
deriving DecidableEq

/-- Strings on this wire are embedded as lists of characters, so that all
protocol functions compute by kernel reduction; the string find and slice
operations decode_command performs are structural recursions here. -/
abbrev Chars : Type := List Char

/-- The marker value the source stores in auth once verification succeeds. -/
def doneMarker : Chars := "Done".data

/-- The connection-local fields of Protocol that the claims concern: auth
(None, a hex nonce string, or the marker string Done), mid_command, and
whether handle_close has run. -/
structure Conn where
  auth : Option Chars
  midCommand : Option Chars
  closed : Bool
deriving DecidableEq

/-- Protocol.handle_close / a fatal protocol error: the connection closes. -/
def connClose (c : Conn) : Conn := { c with closed := true }

/-- Python truthiness of the auth field: None and the empty string are
falsy, any other string is truthy. -/
def truthy : Option Chars → Bool
  | none => false
  | some s => if s = ([] : List Char) then false else true

/-- A lowercase hex digit, as produced by str.encode applied to hex. -/
def hexDigit (n : Nat) : Char :=
  if n < 10 then Char.ofNat (48 + n) else Char.ofNat (87 + n)

/-- Hex encoding of a byte string, two lowercase digits per byte; the nonce
os.urandom(20).encode(hex) is hexEncode of its 20 bytes. -/
def hexEncode (bs : List Nat) : Chars :=
  bs.foldr (fun b acc => hexDigit (b / 16 % 16) :: hexDigit (b % 16) :: acc) []

/-- Protocol.send_challenge: store a fresh hex nonce in auth and send the
challenge command; fresh stands for the bytes of os.urandom(20). -/
def send_challenge (fresh : List Nat) (c : Conn) : Conn :=
  { c with auth := some (hexEncode fresh) }

/-- post_auth_init: ServerChannel starts handing out tasks, which leaves
every connection-local field alone; Client sends its own challenge, but
only when its auth field is still falsy. -/
def post_auth_init (side : Side) (fresh : List Nat) (c : Conn) : Conn :=
  match side with
  | Side.server => c
  | Side.client => if truthy c.auth then c else send_challenge fresh c

/-- Protocol.respond_to_challenge: send the hmac response on the wire (no
connection-local field changes) and run post_auth_init. -/
def respond_to_challenge (side : Side) (fresh : List Nat) (c : Conn) : Conn :=
  post_auth_init side fresh c

/-- Protocol.verify_auth: compare the peer response against the hmac of the
stored nonce under the shared password; hmacHex abstracts the function
sending password and message to the hex digest of HMAC-SHA1.  hmac.new
skips update on a None message, so a None auth hashes like the empty
string.  On match auth becomes Done, on mismatch the connection closes. -/
def verify_auth (pw : Chars) (hmacHex : Chars → Chars → Chars)
    (c : Conn) (data : Chars) : Conn :=
  if data = hmacHex pw ((c.auth).getD []) then { c with auth := some doneMarker }
  else connClose c

/-- Protocol.process_unauthed_command: challenge, auth and disconnect are
handled; an unknown command closes the connection. -/
def process_unauthed_command (side : Side) (pw : Chars)
    (hmacHex : Chars → Chars → Chars) (fresh : List Nat)
    (c : Conn) (cmd data : Chars) : Conn :=
  if cmd = "challenge".data then respond_to_challenge side fresh c
  else if cmd = "auth".data then verify_auth pw hmacHex c data
  else if cmd = "disconnect".data then connClose c
  else connClose c

/-- Protocol.process_command fallback: challenge and disconnect, anything
else is an unknown command that closes the connection. -/
def protocol_process_command (side : Side) (fresh : List Nat)
    (c : Conn) (cmd : Chars) : Conn :=
  if cmd = "challenge".data then respond_to_challenge side fresh c
  else if cmd = "disconnect".data then connClose c
  else connClose c

/-- The connection-local effect of the overridden process_command chain:
the Client handlers for map and reduce run the user function and reply on
the wire, the ServerChannel handlers for mapdone and reducedone feed the
task manager and send the next task; none of the four touches auth,
mid_command or the open state.  Everything else falls back to the
Protocol handlers. -/
def process_command_conn (side : Side) (fresh : List Nat)
    (c : Conn) (cmd : Chars) : Conn :=
  match side with
  | Side.client =>
    if cmd = "map".data ∨ cmd = "reduce".data then c
    else protocol_process_command side fresh c cmd
  | Side.server =>
    if cmd = "mapdone".data ∨ cmd = "reducedone".data then c
    else protocol_process_command side fresh c cmd

/-- Protocol.decode_command: find the first separator colon and split the
line there into the command and the tail; a line with no colon raises
ValueError, modelled as none (the uncaught exception closes the
connection). -/
def decode_command : Chars → Option (Chars × Chars)
  | [] => none
  | ch :: rest =>
    if ch = ':' then some ([], rest)
    else
      match decode_command rest with
      | none => none
      | some (pre, post) => some (ch :: pre, post)

/-- Whether int() accepts the tail as a decimal length: at least one digit,
an optional leading minus sign. -/
def all_digits : Chars → Bool
  | [] => true
  | ch :: rest => if ch.isDigit then all_digits rest else false

/-- Python int(s) succeeding on the non-empty tail s. -/
def parses_as_int (s : Chars) : Bool :=
  match s with
  | '-' :: rest => if rest = ([] : List Char) then false else all_digits rest
  | _ => if s = ([] : List Char) then false else all_digits s

/-- Protocol.found_terminator on one complete incoming frame.  Returns the
new connection state and whether a decoded length-mode payload was
dispatched to process_command this step.  Before auth is Done the line goes
to the unauthed handlers; in line mode a challenge dispatches immediately,
a non-empty numeric tail switches to length mode and remembers the pending
command, an empty tail dispatches with no data; in length mode the payload
is decoded and dispatched to the pending command, and the terminator and
mid_command are reset.  fresh feeds any send_challenge performed inside. -/
def found_terminator (side : Side) (pw : Chars)
    (hmacHex : Chars → Chars → Chars) (c : Conn)
    (message : Chars) (fresh : List Nat) : Conn × Bool :=
  if ¬ (c.auth = some doneMarker) then
    match decode_command message with
    | none => (connClose c, false)
    | some (cmd, data) =>
      (process_unauthed_command side pw hmacHex fresh c cmd data, false)
  else if c.midCommand = none then
    match decode_command message with
    | none => (connClose c, false)
    | some (cmd, length) =>
      if cmd = "challenge".data then (process_command_conn side fresh c cmd, false)
      else if ¬ (length = ([] : List Char)) then
        if parses_as_int length then ({ c with midCommand := some cmd }, false)
        else (connClose c, false)
      else (process_command_conn side fresh c cmd, false)
  else
    let cmd := (c.midCommand).getD []
    (process_command_conn side fresh { c with midCommand := none } cmd, true)

/-- Connection states reachable over any sequence of received frames: a
Client starts with no auth state, a ServerChannel sends its challenge from
start_auth on accept, and every further handler invocation is driven by
found_terminator on some complete frame. -/
inductive ReachConn (side : Side) (pw : Chars)
    (hmacHex : Chars → Chars → Chars) : Conn → Prop where
  | clientInit : ReachConn side pw hmacHex (Conn.mk none none false)
  | serverInit (fresh : List Nat) :
      ReachConn side pw hmacHex (send_challenge fresh (Conn.mk none none false))
  | step (c : Conn) (message : Chars) (fresh : List Nat) :
      ReachConn side pw hmacHex c →
      ReachConn side pw hmacHex (found_terminator side pw hmacHex c message fresh).1

/-! ## The worker connect retry loop (mince.Client.run_client) -/

/-- The constant CONNECTION_WAIT_TIME of mince.py, in seconds. -/
def CONNECTION_WAIT_TIME : Nat := 1

/-- The outcome of run_client: on a successful connect it enters
asyncore.loop; on exhausting the timeout it calls self.close() and returns
normally to its caller. -/
inductive ClientOutcome where
  | enterLoop
  | closeAndReturn
deriving DecidableEq

/-- The retry while loop of run_client.  attempt n reports whether the n-th
connect call leaves the channel connected; false stands for the call
raising socket.error, after which the client re-initializes, sleeps
CONNECTION_WAIT_TIME seconds and adds that to time_spent.  Returns the
number of connect calls made inside the loop and the final connected
flag. -/
def connectLoop (timeout : Nat) (attempt : Nat → Bool) :
    Nat → Nat → Bool → Nat × Bool
  | idx, time_spent, connected =>
    if h : connected = false ∧ time_spent < timeout then
      if attempt idx then (1, true)
      else
        let r := connectLoop timeout attempt (idx + 1)
          (time_spent + CONNECTION_WAIT_TIME) false
        (r.1 + 1, r.2)
    else (0, connected)
termination_by _ time_spent _ => timeout - time_spent
decreasing_by
  simp only [CONNECTION_WAIT_TIME]
  omega

/-- Client.run_client up to the point where it either enters the asyncore
loop or gives up: the initial connect call (attempt 0) precedes the loop,
then the loop retries from time_spent = 0.  Returns the number of connect
calls made inside the retry loop and the outcome. -/
def run_client (timeout : Nat) (attempt : Nat → Bool) : Nat × ClientOutcome :=
  let r := connectLoop timeout attempt 1 0 (attempt 0)
  (r.1, if r.2 then ClientOutcome.enterLoop else ClientOutcome.closeAndReturn)

/-- The exit status of the worker process around run_client, read off
launcher.launch in client mode: the timeout path of run_client calls
self.close() and returns normally (the function body contains no exit
call), launch() logs and returns, and the interpreter exits with status 0.
The status after entering the asyncore loop is not determined by this
code path and is left as none. -/
def workerExitStatus (timeout : Nat) (attempt : Nat → Bool) : Option Nat :=
  match (run_client timeout attempt).2 with
  | ClientOutcome.closeAndReturn => some 0
  | ClientOutcome.enterLoop => none

/-! ## Helper lemmas -/

theorem containsKey_iff_mem_keys [DecidableEq α] (l : List (α × β)) (k : α) :
    containsKey l k = true ↔ k ∈ l.map Prod.fst := by
  induction l with
  | nil => simp [containsKey]
  | cons p ps ih =>
    simp only [containsKey, List.map_cons, List.mem_cons]
    by_cases hk : p.1 = k
    · simp [hk]
    · simp only [hk, if_false, ih]
      constructor
      · exact Or.inr
      · rintro (h | h)
        · exact absurd h.symm hk
        · exact h

theorem setKey_keys_subset [DecidableEq α] (l : List (α × β)) (k : α) (v : β)
    (x : α) (hx : x ∈ (setKey l k v).map Prod.fst) :
    x ∈ l.map Prod.fst ∨ x = k := by
  induction l with
  | nil =>
    simp only [setKey, List.map_cons, List.map_nil, List.mem_cons,
      List.not_mem_nil, or_false] at hx
    exact Or.inr hx
  | cons p ps ih =>
    simp only [setKey] at hx
    by_cases hk : p.1 = k
    · simp only [hk, if_true, List.map_cons, List.mem_cons] at hx
      rcases hx with h | h
      · exact Or.inr h
      · exact Or.inl (List.mem_cons.mpr (Or.inr h))
    · simp only [hk, if_false, List.map_cons, List.mem_cons] at hx
      rcases hx with h | h
      · exact Or.inl (List.mem_cons.mpr (Or.inl h))
      · rcases ih h with h2 | h2
        · exact Or.inl (List.mem_cons.mpr (Or.inr h2))
        · exact Or.inr h2

theorem eraseKey_keys_subset [DecidableEq α] (l : List (α × β)) (k : α)
    (x : α) (hx : x ∈ (eraseKey l k).map Prod.fst) : x ∈ l.map Prod.fst := by
  induction l with
  | nil => simp only [eraseKey] at hx; exact hx
  | cons p ps ih =>
    simp only [eraseKey] at hx
    simp only [List.map_cons, List.mem_cons]
    by_cases hk : p.1 = k
    · simp only [hk, if_true] at hx
      exact Or.inr hx
    · simp only [hk, if_false, List.map_cons, List.mem_cons] at hx
      rcases hx with h | h
      · exact Or.inl h
      · exact Or.inr (ih h)

theorem setKey_of_not_mem [DecidableEq α] (l : List (α × β)) (k : α) (v : β)
    (h : containsKey l k = false) : setKey l k v = l ++ [(k, v)] := by
  induction l with
  | nil => rfl
  | cons p ps ih =>
    simp only [containsKey] at h
    by_cases hk : p.1 = k
    · simp [hk] at h
    · simp only [setKey, hk, if_false, List.cons_append, List.cons.injEq, true_and]
      exact ih (by simpa [hk] using h)

theorem containsKey_setKey_self [DecidableEq α] (l : List (α × β)) (k : α) (v : β) :
    containsKey (setKey l k v) k = true := by
  induction l with
  | nil => simp [setKey, containsKey]
  | cons p ps ih =>
    by_cases hk : p.1 = k
    · simp [setKey, hk, containsKey]
    · simp [setKey, hk, containsKey, ih]

theorem containsKey_setKey_of_mem [DecidableEq α] (l : List (α × β)) (k x : α)
    (v : β) (h : containsKey l x = true) :
    containsKey (setKey l k v) x = true := by
  induction l with
  | nil => simp [containsKey] at h
  | cons p ps ih =>
    by_cases hk : p.1 = k
    · simp only [setKey, hk, if_true]
      by_cases hx : p.1 = x
      · have hkx : k = x := hk.symm.trans hx
        simp [containsKey, hkx]
      · simp only [containsKey, hx, if_false] at h
        simp [containsKey, h]
    · simp only [setKey, hk, if_false]
      by_cases hx : p.1 = x
      · simp [containsKey, hx]
      · simp only [containsKey, hx, if_false] at h ⊢
        exact ih h

theorem containsKey_setKey [DecidableEq α] (l : List (α × β)) (k x : α) (v : β) :
    containsKey (setKey l k v) x = true ↔ x = k ∨ containsKey l x = true := by
  constructor
  · intro h
    rcases setKey_keys_subset l k v x
        ((containsKey_iff_mem_keys _ _).mp h) with h2 | h2
    · exact Or.inr ((containsKey_iff_mem_keys _ _).mpr h2)
    · exact Or.inl h2
  · rintro (h | h)
    · subst h; exact containsKey_setKey_self l x v
    · exact containsKey_setKey_of_mem l k x v h

theorem pyMinPair_mem (hd : α × Nat) (tl : List (α × Nat)) :
    pyMinPair hd tl ∈ hd :: tl := by
  induction tl generalizing hd with
  | nil => simp [pyMinPair]
  | cons p ps ih =>
    have step : pyMinPair hd (p :: ps) = pyMinPair (if p.2 < hd.2 then p else hd) ps := rfl
    rw [step]
    by_cases hlt : p.2 < hd.2
    · rw [if_pos hlt]
      rcases List.mem_cons.mp (ih p) with h | h
      · rw [h]; exact List.mem_cons.mpr (Or.inr (List.mem_cons.mpr (Or.inl rfl)))
      · exact List.mem_cons.mpr (Or.inr (List.mem_cons.mpr (Or.inr h)))
    · rw [if_neg hlt]
      rcases List.mem_cons.mp (ih hd) with h | h
      · rw [h]; exact List.mem_cons.mpr (Or.inl rfl)
      · exact List.mem_cons.mpr (Or.inr (List.mem_cons.mpr (Or.inr h)))

theorem pyMinPair_min (hd : α × Nat) (tl : List (α × Nat)) :
    ∀ q ∈ hd :: tl, (pyMinPair hd tl).2 ≤ q.2 := by
  induction tl generalizing hd with
  | nil =>
    intro q hq
    rcases List.mem_cons.mp hq with h | h
    · subst h; exact Nat.le_refl _
    · exact absurd h (List.not_mem_nil q)
  | cons p ps ih =>
    intro q hq
    have step : pyMinPair hd (p :: ps) = pyMinPair (if p.2 < hd.2 then p else hd) ps := rfl
    rw [step]
    have hbest_hd : (if p.2 < hd.2 then p else hd).2 ≤ hd.2 := by
      by_cases hlt : p.2 < hd.2
      · rw [if_pos hlt]; exact Nat.le_of_lt hlt
      · rw [if_neg hlt]
    have hbest_p : (if p.2 < hd.2 then p else hd).2 ≤ p.2 := by
      by_cases hlt : p.2 < hd.2
      · rw [if_pos hlt]
      · rw [if_neg hlt]; exact Nat.le_of_not_lt hlt
    have hself := ih (if p.2 < hd.2 then p else hd)
      (if p.2 < hd.2 then p else hd) (List.mem_cons.mpr (Or.inl rfl))
    rcases List.mem_cons.mp hq with h | h
    · subst h
      exact Nat.le_trans hself hbest_hd
    · rcases List.mem_cons.mp h with h2 | h2
      · subst h2
        exact Nat.le_trans hself hbest_p
      · exact ih _ q (List.mem_cons.mpr (Or.inr h2))

/-! ## Claim C3: late or duplicate results are discarded without state change -/

/-- C3: a call of map_done whose key is not in working_maps, and a call of
reduce_done whose key is not in working_reduces, return leaving every
task-manager field unchanged: late or duplicate results are silently
discarded. -/
theorem late_results_dropped [DecidableEq K] [DecidableEq Kp]
    (tm tm2 : TaskManager K V Kp Vp W) (k : K)
    (mo : Option (List (Kp × List Vp))) (k2 : Kp) (v : Option W)
    (h1 : containsKey tm.working_maps k = false)
    (h2 : containsKey tm2.working_reduces k2 = false) :
    map_done tm (k, mo) = tm ∧ reduce_done tm2 (k2, v) = tm2 := by
  constructor
  · simp [map_done, h1]
  · simp [reduce_done, h2]

theorem late_results_dropped_witness :
    containsKey (initTM [(1, 2)] 10 :
        TaskManager Nat Nat Nat Nat Nat).working_maps 0 = false ∧
    containsKey (initTM [(1, 2)] 10 :
        TaskManager Nat Nat Nat Nat Nat).working_reduces 0 = false ∧
    map_done (initTM [(1, 2)] 10 : TaskManager Nat Nat Nat Nat Nat) (0, none) =
      initTM [(1, 2)] 10 ∧
    reduce_done (initTM [(1, 2)] 10 : TaskManager Nat Nat Nat Nat Nat) (0, none) =
      initTM [(1, 2)] 10 := by
  refine ⟨rfl, rfl, ?_⟩
  exact late_results_dropped (initTM [(1, 2)] 10) (initTM [(1, 2)] 10)
    0 none 0 none rfl rfl

/-! ## Claim C6: empty datasource terminates in one call -/

/-- C6: with an empty datasource, the first next_task call passes from
START through MAPPING and REDUCING to FINISHED within that single call,
returns the disconnect command with the listener-close flag set, and the
final results mapping is empty. -/
theorem empty_datasource_finishes [DecidableEq K] [DecidableEq Kp] [Inhabited V]
    (ri now : Nat) :
    (initTM ([] : List (K × V)) ri : TaskManager K V Kp Vp W).state = TASK.START ∧
    next_task (initTM ([] : List (K × V)) ri : TaskManager K V Kp Vp W) now =
      (TaskCmd.disconnect,
        { (initTM ([] : List (K × V)) ri : TaskManager K V Kp Vp W) with
            state := TASK.FINISHED },
        true) ∧
    ((next_task (initTM ([] : List (K × V)) ri : TaskManager K V Kp Vp W)
        now).2.1).results = [] ∧
    ((next_task (initTM ([] : List (K × V)) ri : TaskManager K V Kp Vp W)
        now).2.1).state = TASK.FINISHED :=
  ⟨rfl, rfl, rfl, rfl⟩

/-! ## Claim C7: authenticated state is monotonic -/

theorem post_auth_init_of_done (side : Side) (fresh : List Nat) (c : Conn)
    (h : c.auth = some doneMarker) : post_auth_init side fresh c = c := by
  cases side
  · rfl
  · unfold post_auth_init
    rw [h]
    rfl

theorem process_command_conn_auth_done (side : Side) (fresh : List Nat)
    (c : Conn) (cmd : Chars) (h : c.auth = some doneMarker) :
    (process_command_conn side fresh c cmd).auth = some doneMarker := by
  have hpai : ∀ s f, (post_auth_init s f c).auth = some doneMarker := by
    intro s f
    rw [post_auth_init_of_done s f c h]
    exact h
  cases side <;>
    simp only [process_command_conn, protocol_process_command,
      respond_to_challenge] <;>
    split_ifs <;>
    first
      | exact hpai _ _
      | exact h

/-- C7: once the auth field of a connection has been set to the marker Done, no
handler invocation driven by a received frame (found_terminator together
with the respond_to_challenge, verify_auth, post_auth_init and
send_challenge calls it triggers) changes it to any other value; in
particular the guard in the client post_auth_init keeps send_challenge from
overwriting an authenticated state. -/
theorem auth_monotonic_once_done (side : Side) (pw : Chars)
    (hmacHex : Chars → Chars → Chars) (c : Conn) (message : Chars)
    (fresh : List Nat) (h : c.auth = some doneMarker) :
    (found_terminator side pw hmacHex c message fresh).1.auth = some doneMarker := by
  unfold found_terminator
  rw [if_neg (not_not_intro h)]
  by_cases hmid : c.midCommand = none
  · rw [if_pos hmid]
    cases hdec : decode_command message with
    | none =>
      simpa [connClose] using h
    | some pr =>
      obtain ⟨cmd, length⟩ := pr
      simp only
      split_ifs with hch hlen hint
      · exact process_command_conn_auth_done _ _ _ _ h
      · exact process_command_conn_auth_done _ _ _ _ h
      · simpa using h
      · simpa [connClose] using h
  · rw [if_neg hmid]
    exact process_command_conn_auth_done _ _ _ _ h

theorem auth_monotonic_once_done_witness :
    (found_terminator Side.server "pw".data (fun _ _ => [])
        (Conn.mk (some doneMarker) none false) "mapdone:5".data []).1.auth =
      some doneMarker :=
  auth_monotonic_once_done Side.server "pw".data (fun _ _ => [])
    (Conn.mk (some doneMarker) none false) "mapdone:5".data [] rfl

/-! ## Claim C4: payloads are dispatched only on authenticated connections -/

theorem process_unauthed_command_midCommand (side : Side) (pw : Chars)
    (hm : Chars → Chars → Chars) (fresh : List Nat) (c : Conn)
    (cmd data : Chars) :
    (process_unauthed_command side pw hm fresh c cmd data).midCommand =
      c.midCommand := by
  cases side <;>
    simp only [process_unauthed_command, respond_to_challenge, post_auth_init,
      verify_auth, send_challenge, connClose] <;>
    split_ifs <;> rfl

theorem process_command_conn_midCommand (side : Side) (fresh : List Nat)
    (c : Conn) (cmd : Chars) :
    (process_command_conn side fresh c cmd).midCommand = c.midCommand := by
  cases side <;>
    simp only [process_command_conn, protocol_process_command,
      respond_to_challenge, post_auth_init, send_challenge, connClose] <;>
    split_ifs <;> rfl

/-- Reachability invariant: a pending length-mode command implies the
connection is authenticated, so a length-mode payload frame can never
arrive on an unauthenticated connection. -/
theorem reach_conn_pending_implies_done (side : Side) (pw : Chars)
    (hm : Chars → Chars → Chars) (c : Conn) (h : ReachConn side pw hm c) :
    c.midCommand ≠ none → c.auth = some doneMarker := by
  induction h with
  | clientInit => intro hmid; exact absurd rfl hmid
  | serverInit fresh => intro hmid; exact absurd rfl hmid
  | step c message fresh hr ih =>
    by_cases ha : c.auth = some doneMarker
    · by_cases hm0 : c.midCommand = none
      · unfold found_terminator
        rw [if_neg (not_not_intro ha), if_pos hm0]
        cases hdec : decode_command message with
        | none => intro hmid; exact absurd hm0 hmid
        | some pr =>
          obtain ⟨cmd, length⟩ := pr
          simp only
          split_ifs with hch hlen hint
          · intro hmid
            rw [process_command_conn_midCommand] at hmid
            exact absurd hm0 hmid
          · intro hmid
            rw [process_command_conn_midCommand] at hmid
            exact absurd hm0 hmid
          · intro hmid
            exact ha
          · intro hmid
            exact absurd hm0 hmid
      · unfold found_terminator
        rw [if_neg (not_not_intro ha), if_neg hm0]
        intro hmid
        rw [process_command_conn_midCommand] at hmid
        exact absurd rfl hmid
    · have hm0 : c.midCommand = none := by
        by_contra hne
        exact ha (ih hne)
      unfold found_terminator
      rw [if_pos ha]
      cases hdec : decode_command message with
      | none => intro hmid; exact absurd hm0 hmid
      | some pr =>
        obtain ⟨cmd, data⟩ := pr
        intro hmid
        rw [process_unauthed_command_midCommand] at hmid
        exact absurd hm0 hmid

/-- C4: on any reachable connection state, found_terminator dispatches a
decoded length-mode payload to process_command only when a command is
pending and the auth state is the Done marker; since by the reachability
invariant a pending command itself implies Done, a payload frame can never
arrive, let alone be dispatched, while the connection is unauthenticated
(the unauthenticated-payload error path is unreachable). -/
theorem payload_dispatch_requires_auth (side : Side) (pw : Chars)
    (hm : Chars → Chars → Chars) (c : Conn) (message : Chars)
    (fresh : List Nat) (hreach : ReachConn side pw hm c)
    (hdisp : (found_terminator side pw hm c message fresh).2 = true) :
    c.midCommand ≠ none ∧ c.auth = some doneMarker := by
  have hmid : c.midCommand ≠ none := by
    intro hm0
    unfold found_terminator at hdisp
    by_cases ha : c.auth = some doneMarker
    · rw [if_neg (not_not_intro ha), if_pos hm0] at hdisp
      cases hdec : decode_command message with
      | none =>
        rw [hdec] at hdisp
        simp at hdisp
      | some pr =>
        obtain ⟨cmd, length⟩ := pr
        rw [hdec] at hdisp
        simp only at hdisp
        split_ifs at hdisp with hch hlen hint <;> simp at hdisp
    · rw [if_pos ha] at hdisp
      cases hdec : decode_command message with
      | none =>
        rw [hdec] at hdisp
        simp at hdisp
      | some pr =>
        obtain ⟨cmd, data⟩ := pr
        rw [hdec] at hdisp
        simp at hdisp
  exact ⟨hmid, reach_conn_pending_implies_done side pw hm c hreach hmid⟩

theorem payload_dispatch_requires_auth_witness :
    (Conn.mk (some doneMarker) (some "mapdone".data) false).midCommand ≠ none ∧
    (Conn.mk (some doneMarker) (some "mapdone".data) false).auth =
      some doneMarker :=
  payload_dispatch_requires_auth Side.client "pw".data (fun _ _ => "h".data)
    (Conn.mk (some doneMarker) (some "mapdone".data) false) "payload".data []
    (ReachConn.step _ "mapdone:5".data []
      (ReachConn.step _ "auth:h".data [] ReachConn.clientInit))
    rfl

/-! ## Claim C5: results holds exactly the keys with a present reducer value -/

theorem reduce_done_accepted_some [DecidableEq Kp]
    (tm : TaskManager K V Kp Vp W) (kp : Kp) (v : W)
    (h : containsKey tm.working_reduces kp = true) :
    reduce_done tm (kp, some v) =
      { tm with results := setKey tm.results kp v,
                working_reduces := eraseKey tm.working_reduces kp } := by
  simp [reduce_done, h]

theorem reduce_done_accepted_none [DecidableEq Kp]
    (tm : TaskManager K V Kp Vp W) (kp : Kp)
    (h : containsKey tm.working_reduces kp = true) :
    reduce_done tm (kp, none) =
      { tm with working_reduces := eraseKey tm.working_reduces kp } := by
  simp [reduce_done, h]

theorem reduce_fold_results_keys [DecidableEq K] [DecidableEq Kp]
    (ds : List (Kp × Option W)) :
    ∀ tm : TaskManager K V Kp Vp W, allAcceptedReduces tm ds → ∀ kp,
      (containsKey (ds.foldl reduce_done tm).results kp = true ↔
        containsKey tm.results kp = true ∨ ∃ v, (kp, some v) ∈ ds) := by
  induction ds with
  | nil =>
    intro tm _h kp
    simp
  | cons d rest ih =>
    intro tm h kp
    obtain ⟨hacc, hrest⟩ := h
    rw [List.foldl_cons, ih (reduce_done tm d) hrest kp]
    obtain ⟨k, o⟩ := d
    cases o with
    | some v =>
      rw [reduce_done_accepted_some _ _ _ hacc]
      simp only
      rw [containsKey_setKey]
      simp only [List.mem_cons, Prod.mk.injEq, Option.some.injEq]
      constructor
      · rintro (⟨h1 | h1⟩ | ⟨v2, h1⟩)
        · exact Or.inr ⟨v, Or.inl ⟨h1, rfl⟩⟩
        · exact Or.inl h1
        · exact Or.inr ⟨v2, Or.inr h1⟩
      · rintro (h1 | ⟨v2, ⟨h1, h2⟩ | h1⟩)
        · exact Or.inl (Or.inr h1)
        · exact Or.inl (Or.inl h1)
        · exact Or.inr ⟨v2, h1⟩
    | none =>
      have hres : (reduce_done tm (k, none)).results = tm.results := by
        rw [reduce_done_accepted_none _ _ hacc]
      rw [hres]
      simp only [List.mem_cons, Prod.mk.injEq]
      constructor
      · rintro (h1 | ⟨v2, h1⟩)
        · exact Or.inl h1
        · exact Or.inr ⟨v2, Or.inr h1⟩
      · rintro (h1 | ⟨v2, ⟨h1, h2⟩ | h1⟩)
        · exact Or.inl h1
        · exact absurd h2 (Option.some_ne_none v2)
        · exact Or.inr ⟨v2, h1⟩

/-- C5: an accepted reduce_done stores results at its key only when the
value is present, removes the key from working_reduces in either case, and
an absent value leaves results without the key; folding any sequence of
accepted reduce results over a task manager whose results mapping is empty
(as it is when REDUCING starts, and results is not touched afterwards
until FINISHED) leaves in results exactly the keys that some accepted
reduce_done carried with a present value. -/
theorem results_exactly_present_reduces [DecidableEq K] [DecidableEq Kp]
    (tm tmf : TaskManager K V Kp Vp W) (kp kp2 : Kp) (v : W)
    (ds : List (Kp × Option W))
    (hk : containsKey tm.working_reduces kp = true)
    (hres : containsKey tm.results kp = false)
    (hacc : allAcceptedReduces tmf ds)
    (hempty : tmf.results = []) :
    reduce_done tm (kp, some v) =
      { tm with results := setKey tm.results kp v,
                working_reduces := eraseKey tm.working_reduces kp } ∧
    reduce_done tm (kp, none) =
      { tm with working_reduces := eraseKey tm.working_reduces kp } ∧
    containsKey (reduce_done tm (kp, none)).results kp = false ∧
    (containsKey (ds.foldl reduce_done tmf).results kp2 = true ↔
      ∃ v2, (kp2, some v2) ∈ ds) := by
  refine ⟨reduce_done_accepted_some tm kp v hk,
          reduce_done_accepted_none tm kp hk, ?_, ?_⟩
  · rw [reduce_done_accepted_none tm kp hk]
    exact hres
  · rw [reduce_fold_results_keys ds tmf hacc kp2, hempty]
    simp [containsKey]

theorem results_exactly_present_reduces_witness :
    containsKey ({ (initTM [(0, 7)] 10 : TaskManager Nat Nat Nat Nat Nat) with
        working_reduces := [(5, 0)] }).working_reduces 5 = true ∧
    containsKey ({ (initTM [(0, 7)] 10 : TaskManager Nat Nat Nat Nat Nat) with
        working_reduces := [(5, 0)] }).results 5 = false ∧
    (containsKey
        (([(5, some 9)] : List (Nat × Option Nat)).foldl reduce_done
          { (initTM [(0, 7)] 10 : TaskManager Nat Nat Nat Nat Nat) with
              working_reduces := [(5, 0)] }).results 5 = true ↔
      ∃ v2, ((5 : Nat), some v2) ∈ ([(5, some 9)] : List (Nat × Option Nat))) := by
  refine ⟨rfl, rfl, ?_⟩
  exact (results_exactly_present_reduces
    { initTM [(0, 7)] 10 with working_reduces := [(5, 0)] }
    { initTM [(0, 7)] 10 with working_reduces := [(5, 0)] }
    5 5 9 [(5, some 9)] rfl rfl ⟨rfl, trivial⟩ rfl).2.2.2

/-! ## Claim C2: an exhausted phase reassigns the oldest outstanding task -/

/-- C2: in MAPPING with the key iterator exhausted and working_maps
non-empty, next_task picks the working key with the smallest timestamp
(Python min with the dict get as key function, first minimal on ties),
refreshes its timestamp to now, and returns the map command carrying that
key and its datasource value; symmetrically in REDUCING over
working_reduces and map_results. -/
theorem reassigns_oldest_outstanding [DecidableEq K] [DecidableEq Kp]
    [Inhabited V] (tmA tmB : TaskManager K V Kp Vp W) (now : Nat)
    (pA : K × Nat) (psA : List (K × Nat)) (pB : Kp × Nat)
    (psB : List (Kp × Nat))
    (hA1 : tmA.state = TASK.MAPPING) (hA2 : tmA.map_iter = [])
    (hA3 : tmA.working_maps = pA :: psA)
    (hB1 : tmB.state = TASK.REDUCING) (hB2 : tmB.reduce_iter = [])
    (hB3 : tmB.working_reduces = pB :: psB) :
    ((pyMin pA psA, (pyMinPair pA psA).2) ∈ tmA.working_maps ∧
     (∀ q ∈ tmA.working_maps, (pyMinPair pA psA).2 ≤ q.2) ∧
     next_task tmA now =
       (TaskCmd.map (pyMin pA psA)
          (alookupD tmA.datasource (pyMin pA psA) default),
        { tmA with working_maps := setKey tmA.working_maps (pyMin pA psA) now },
        false)) ∧
    ((pyMin pB psB, (pyMinPair pB psB).2) ∈ tmB.working_reduces ∧
     (∀ q ∈ tmB.working_reduces, (pyMinPair pB psB).2 ≤ q.2) ∧
     next_task tmB now =
       (TaskCmd.reduce (pyMin pB psB)
          (alookupD tmB.map_results (pyMin pB psB) []),
        { tmB with
            working_reduces := setKey tmB.working_reduces (pyMin pB psB) now },
        false)) := by
  constructor
  · refine ⟨?_, ?_, ?_⟩
    · rw [hA3]
      exact pyMinPair_mem pA psA
    · rw [hA3]
      exact pyMinPair_min pA psA
    · obtain ⟨ds, nm, ndm, st, nrp, ri, mi, wm, mr, rit, wr, res⟩ := tmA
      simp only at hA1 hA2 hA3
      subst hA1 hA2 hA3
      rfl
  · refine ⟨?_, ?_, ?_⟩
    · rw [hB3]
      exact pyMinPair_mem pB psB
    · rw [hB3]
      exact pyMinPair_min pB psB
    · obtain ⟨ds, nm, ndm, st, nrp, ri, mi, wm, mr, rit, wr, res⟩ := tmB
      simp only at hB1 hB2 hB3
      subst hB1 hB2 hB3
      rfl

theorem reassigns_oldest_outstanding_witness :
    next_task ({ (initTM [(0, 7), (1, 8)] 10 :
        TaskManager Nat Nat Nat Nat Nat) with
          state := TASK.MAPPING, working_maps := [(0, 4), (1, 3)] }) 9 =
      (TaskCmd.map 1 8,
       { (initTM [(0, 7), (1, 8)] 10 : TaskManager Nat Nat Nat Nat Nat) with
           state := TASK.MAPPING, working_maps := [(0, 4), (1, 9)] },
       false) ∧
    next_task ({ (initTM [(0, 7)] 10 : TaskManager Nat Nat Nat Nat Nat) with
          state := TASK.REDUCING, map_results := [(2, [5])],
          working_reduces := [(2, 1)] }) 9 =
      (TaskCmd.reduce 2 [5],
       { (initTM [(0, 7)] 10 : TaskManager Nat Nat Nat Nat Nat) with
           state := TASK.REDUCING, map_results := [(2, [5])],
           working_reduces := [(2, 9)] },
       false) := by
  have h := reassigns_oldest_outstanding
    ({ (initTM [(0, 7), (1, 8)] 10 : TaskManager Nat Nat Nat Nat Nat) with
        state := TASK.MAPPING, working_maps := [(0, 4), (1, 3)] })
    ({ (initTM [(0, 7)] 10 : TaskManager Nat Nat Nat Nat Nat) with
        state := TASK.REDUCING, map_results := [(2, [5])],
        working_reduces := [(2, 1)] })
    9 (0, 4) [(1, 3)] (2, 1) [] rfl rfl rfl rfl rfl rfl
  exact ⟨h.1.2.2, h.2.2.2⟩

/-! ## Claim C10: the progress percentage never divides by zero -/

theorem reducing_block_preserves [DecidableEq K] [DecidableEq Kp]
    (tm : TaskManager K V Kp Vp W) (now : Nat) :
    ((reducing_block tm now).2.1).datasource = tm.datasource ∧
    ((reducing_block tm now).2.1).num_maps = tm.num_maps ∧
    ((reducing_block tm now).2.1).working_maps = tm.working_maps ∧
    ((reducing_block tm now).2.1).map_iter = tm.map_iter := by
  unfold reducing_block
  cases tm.reduce_iter with
  | cons item rest => exact ⟨rfl, rfl, rfl, rfl⟩
  | nil =>
    cases tm.working_reduces with
    | cons p ps => exact ⟨rfl, rfl, rfl, rfl⟩
    | nil => exact ⟨rfl, rfl, rfl, rfl⟩

theorem next_task_from_preserves [DecidableEq K] [DecidableEq Kp] [Inhabited V]
    (tm : TaskManager K V Kp Vp W) (now : Nat) :
    ((next_task_from tm now).2.1).datasource = tm.datasource ∧
    ((next_task_from tm now).2.1).num_maps = tm.num_maps ∧
    (∀ x ∈ ((next_task_from tm now).2.1).working_maps.map Prod.fst,
        x ∈ tm.working_maps.map Prod.fst ∨ x ∈ tm.map_iter) ∧
    (∀ x ∈ ((next_task_from tm now).2.1).map_iter, x ∈ tm.map_iter) := by
  obtain ⟨dsf, nm, ndm, st, nrp, rif, mi, wm, mr, rit, wr, res⟩ := tm
  by_cases hst : st = TASK.MAPPING
  · subst hst
    cases mi with
    | cons map_key rest =>
      refine ⟨rfl, rfl, ?_, ?_⟩
      · intro x hx
        rcases setKey_keys_subset wm map_key now x hx with h | h
        · exact Or.inl h
        · rw [h]
          exact Or.inr (List.mem_cons.mpr (Or.inl rfl))
      · intro x hx
        exact List.mem_cons.mpr (Or.inr hx)
    | nil =>
      cases wm with
      | cons p ps =>
        refine ⟨rfl, rfl, ?_, ?_⟩
        · intro x hx
          rcases setKey_keys_subset (p :: ps) (pyMin p ps) now x hx with h | h
          · exact Or.inl h
          · subst h
            exact Or.inl (List.mem_map.mpr ⟨pyMinPair p ps, pyMinPair_mem p ps, rfl⟩)
        · intro x hx
          exact absurd hx (List.not_mem_nil x)
      | nil =>
        have heq : next_task_from
            (TaskManager.mk dsf nm ndm TASK.MAPPING nrp rif [] [] mr rit wr res)
            now =
            reducing_block
              (TaskManager.mk dsf nm ndm TASK.REDUCING nrp rif [] [] mr mr [] [])
              now := rfl
        rw [heq]
        obtain ⟨p1, p2, p3, p4⟩ := reducing_block_preserves
          (TaskManager.mk dsf nm ndm TASK.REDUCING nrp rif [] [] mr mr [] [])
          now
        refine ⟨p1, p2, ?_, ?_⟩
        · intro x hx
          rw [p3] at hx
          simp at hx
        · intro x hx
          rw [p4] at hx
          simp at hx
  · by_cases hrd : st = TASK.REDUCING
    · subst hrd
      have heq : next_task_from
          (TaskManager.mk dsf nm ndm TASK.REDUCING nrp rif mi wm mr rit wr res)
          now =
          reducing_block
            (TaskManager.mk dsf nm ndm TASK.REDUCING nrp rif mi wm mr rit wr res)
            now := rfl
      rw [heq]
      obtain ⟨p1, p2, p3, p4⟩ := reducing_block_preserves
        (TaskManager.mk dsf nm ndm TASK.REDUCING nrp rif mi wm mr rit wr res) now
      refine ⟨p1, p2, ?_, ?_⟩
      · intro x hx
        rw [p3] at hx
        exact Or.inl hx
      · intro x hx
        rw [p4] at hx
        exact hx
    · have heq : next_task_from
          (TaskManager.mk dsf nm ndm st nrp rif mi wm mr rit wr res) now =
          (TaskCmd.disconnect,
           TaskManager.mk dsf nm ndm st nrp rif mi wm mr rit wr res, true) := by
        unfold next_task_from
        rw [if_neg hst, if_neg hrd]
      rw [heq]
      exact ⟨rfl, rfl, fun x hx => Or.inl hx, fun x hx => hx⟩

theorem start_block_preserves (tm : TaskManager K V Kp Vp W) :
    (start_block tm).datasource = tm.datasource ∧
    (start_block tm).num_maps = tm.num_maps ∧
    (∀ x ∈ (start_block tm).working_maps.map Prod.fst,
        x ∈ tm.working_maps.map Prod.fst) ∧
    (∀ x ∈ (start_block tm).map_iter,
        x ∈ tm.map_iter ∨ x ∈ tm.datasource.map Prod.fst) := by
  unfold start_block
  split_ifs with h
  · refine ⟨rfl, rfl, ?_, ?_⟩
    · intro x hx
      simp at hx
    · intro x hx
      exact Or.inr hx
  · exact ⟨rfl, rfl, fun x hx => hx, fun x hx => Or.inl hx⟩

theorem map_done_preserves [DecidableEq K] [DecidableEq Kp]
    (tm : TaskManager K V Kp Vp W) (d : K × Option (List (Kp × List Vp))) :
    (map_done tm d).datasource = tm.datasource ∧
    (map_done tm d).num_maps = tm.num_maps ∧
    (∀ x ∈ (map_done tm d).working_maps.map Prod.fst,
        x ∈ tm.working_maps.map Prod.fst) ∧
    (map_done tm d).map_iter = tm.map_iter := by
  obtain ⟨k, mo⟩ := d
  by_cases h1 : containsKey tm.working_maps k = true
  · cases mo <;> simp only [map_done, h1, if_true] <;> split_ifs <;>
      exact ⟨rfl, rfl, fun x hx => eraseKey_keys_subset _ _ _ hx, rfl⟩
  · simp only [map_done]
    rw [if_neg h1]
    exact ⟨rfl, rfl, fun x hx => hx, rfl⟩

theorem reduce_done_preserves [DecidableEq K] [DecidableEq Kp]
    (tm : TaskManager K V Kp Vp W) (d : Kp × Option W) :
    (reduce_done tm d).datasource = tm.datasource ∧
    (reduce_done tm d).num_maps = tm.num_maps ∧
    (reduce_done tm d).working_maps = tm.working_maps ∧
    (reduce_done tm d).map_iter = tm.map_iter := by
  obtain ⟨k, o⟩ := d
  by_cases h1 : containsKey tm.working_reduces k = true
  · cases o <;> simp [reduce_done, h1]
  · simp only [reduce_done]
    rw [if_neg h1]
    exact ⟨rfl, rfl, rfl, rfl⟩

/-- Reachability invariant of the task manager: the datasource is the one
given at construction, num_maps is its key count, and both the outstanding
map keys and the keys the map iterator has yet to yield are datasource
keys. -/
theorem reach_tm_inv [DecidableEq K] [DecidableEq Kp] [Inhabited V]
    (ds : List (K × V)) (ri : Nat) (tm : TaskManager K V Kp Vp W)
    (h : ReachTM ds ri tm) :
    tm.datasource = ds ∧ tm.num_maps = (ds.map Prod.fst).length ∧
    (∀ x ∈ tm.working_maps.map Prod.fst, x ∈ ds.map Prod.fst) ∧
    (∀ x ∈ tm.map_iter, x ∈ ds.map Prod.fst) := by
  induction h with
  | init =>
    refine ⟨rfl, rfl, ?_, ?_⟩ <;> intro x hx <;> simp [initTM] at hx
  | step_next tm now _hr ih =>
    obtain ⟨h1, h2, h3, h4⟩ := ih
    obtain ⟨s1, s2, s3, s4⟩ := start_block_preserves tm
    obtain ⟨p1, p2, p3, p4⟩ := next_task_from_preserves (start_block tm) now
    refine ⟨?_, ?_, ?_, ?_⟩
    · rw [show (next_task tm now).2.1 = (next_task_from (start_block tm) now).2.1
          from rfl, p1, s1, h1]
    · rw [show (next_task tm now).2.1 = (next_task_from (start_block tm) now).2.1
          from rfl, p2, s2, h2]
    · intro x hx
      rcases p3 x hx with hw | hw
      · rcases s3 x hw with h5
        exact h3 x h5
      · rcases s4 x hw with h5 | h5
        · exact h4 x h5
        · rw [h1] at h5
          exact h5
    · intro x hx
      rcases p4 x hx with hw
      rcases s4 x hw with h5 | h5
      · exact h4 x h5
      · rw [h1] at h5
        exact h5
  | step_map tm d _hr ih =>
    obtain ⟨h1, h2, h3, h4⟩ := ih
    obtain ⟨p1, p2, p3, p4⟩ := map_done_preserves tm d
    exact ⟨p1.trans h1, p2.trans h2,
      fun x hx => h3 x (p3 x hx), fun x hx => h4 x (p4 ▸ hx)⟩
  | step_reduce tm d _hr ih =>
    obtain ⟨h1, h2, h3, h4⟩ := ih
    obtain ⟨p1, p2, p3, p4⟩ := reduce_done_preserves tm d
    exact ⟨p1.trans h1, p2.trans h2,
      fun x hx => h3 x (p3 ▸ hx), fun x hx => h4 x (p4 ▸ hx)⟩

/-- C10: on every reachable task-manager state in which map_done passes its
working_maps membership test (the only way to the percentage line), the key
belongs to the datasource, so num_maps, which always equals the datasource
key count, is at least 1, and the Python division num_done_maps * 100 /
num_maps cannot divide by zero. -/
theorem map_progress_no_div_by_zero [DecidableEq K] [DecidableEq Kp]
    [Inhabited V] (ds : List (K × V)) (ri : Nat)
    (tm : TaskManager K V Kp Vp W) (k : K)
    (hreach : ReachTM ds ri tm)
    (hk : containsKey tm.working_maps k = true) :
    1 ≤ tm.num_maps ∧ tm.num_maps = (tm.datasource.map Prod.fst).length := by
  obtain ⟨h1, h2, h3, h4⟩ := reach_tm_inv ds ri tm hreach
  have hmem : k ∈ ds.map Prod.fst :=
    h3 k ((containsKey_iff_mem_keys _ _).mp hk)
  have hne : ds ≠ [] := by
    rintro rfl
    simp at hmem
  constructor
  · rw [h2]
    have hpos : 0 < ds.length := List.length_pos.mpr hne
    simpa using hpos
  · rw [h2, h1]

theorem map_progress_no_div_by_zero_witness :
    1 ≤ ((next_task (initTM [(0, 1)] 10 : TaskManager Nat Nat Nat Nat Nat)
        0).2.1).num_maps ∧
    ((next_task (initTM [(0, 1)] 10 : TaskManager Nat Nat Nat Nat Nat)
        0).2.1).num_maps =
      (((next_task (initTM [(0, 1)] 10 : TaskManager Nat Nat Nat Nat Nat)
        0).2.1).datasource.map Prod.fst).length :=
  map_progress_no_div_by_zero [(0, 1)] 10 _ 0
    (ReachTM.step_next _ 0 ReachTM.init) rfl

/-! ## Claim C9: the connect retry loop and the exit status on timeout -/

theorem connectLoop_all_fail (timeout : Nat) (attempt : Nat → Bool)
    (h : ∀ n, attempt n = false) :
    ∀ fuel ts idx, timeout - ts = fuel → ts ≤ timeout →
      connectLoop timeout attempt idx ts false = (timeout - ts, false) := by
  intro fuel
  induction fuel with
  | zero =>
    intro ts idx hf hle
    have hnlt : ¬ ts < timeout := by omega
    unfold connectLoop
    rw [dif_neg (by exact fun hc => hnlt hc.2)]
    rw [hf]
  | succ n ihn =>
    intro ts idx hf hle
    have hlt : ts < timeout := by omega
    unfold connectLoop
    rw [dif_pos ⟨rfl, hlt⟩, h idx]
    simp only [Bool.false_eq_true, if_false]
    rw [ihn (ts + CONNECTION_WAIT_TIME) (idx + 1)
      (by simp only [CONNECTION_WAIT_TIME]; omega)
      (by simp only [CONNECTION_WAIT_TIME]; omega)]
    simp only [CONNECTION_WAIT_TIME]
    have : timeout - (ts + 1) + 1 = timeout - ts := by omega
    rw [this]

/-- C9 counterexample: with timeout 3 and every connect call failing, the
worker makes exactly 3 retries and then run_client closes the socket and
returns; the process exit status on this path is 0 (run_client and launch
contain no exit call on it), contradicting the claimed non-zero exit
code. -/
theorem client_connect_timeout_exit_code_counterexample :
    run_client 3 (fun _ => false) = (3, ClientOutcome.closeAndReturn) ∧
    workerExitStatus 3 (fun _ => false) = some 0 ∧
    (∀ code, workerExitStatus 3 (fun _ => false) = some code → code = 0) := by
  have hloop := connectLoop_all_fail 3 (fun _ => false) (fun _ => rfl)
    3 0 1 rfl (by omega)
  have hrc : run_client 3 (fun _ => false) = (3, ClientOutcome.closeAndReturn) := by
    unfold run_client
    rw [show (fun (_ : Nat) => false) 0 = false from rfl, hloop]
    rfl
  refine ⟨hrc, ?_, ?_⟩
  · unfold workerExitStatus
    rw [hrc]
  · intro code hcode
    unfold workerExitStatus at hcode
    rw [hrc] at hcode
    simpa using hcode.symm

/-- C9 as amended: when the initial connect fails and no connect ever
succeeds, run_client retries every CONNECTION_WAIT_TIME seconds until the
accumulated time reaches the timeout, making exactly timeout /
CONNECTION_WAIT_TIME retries (which meets the at most ceiling bound of the
claim); it then closes its socket and returns normally, and the worker
process exits with status 0 rather than a non-zero code, since neither
run_client nor launch calls exit on this path. -/
theorem client_retry_until_timeout_then_exit_zero (timeout : Nat)
    (attempt : Nat → Bool) (h : ∀ n, attempt n = false) :
    run_client timeout attempt = (timeout, ClientOutcome.closeAndReturn) ∧
    timeout ≤ (timeout + CONNECTION_WAIT_TIME - 1) / CONNECTION_WAIT_TIME ∧
    workerExitStatus timeout attempt = some 0 := by
  have hloop := connectLoop_all_fail timeout attempt h timeout 0 1 rfl
    (by omega)
  have hrc : run_client timeout attempt =
      (timeout, ClientOutcome.closeAndReturn) := by
    unfold run_client
    rw [h 0, hloop]
    rfl
  refine ⟨hrc, ?_, ?_⟩
  · simp [CONNECTION_WAIT_TIME]
  · unfold workerExitStatus
    rw [hrc]

theorem client_retry_until_timeout_then_exit_zero_witness :
    run_client 2 (fun _ => false) = (2, ClientOutcome.closeAndReturn) ∧
    2 ≤ (2 + CONNECTION_WAIT_TIME - 1) / CONNECTION_WAIT_TIME ∧
    workerExitStatus 2 (fun _ => false) = some 0 :=
  client_retry_until_timeout_then_exit_zero 2 (fun _ => false) (fun _ => rfl)

/-! ## Claim C1: the shuffle buffer is the acceptance-ordered concatenation -/

theorem alookupD_extendBucket_self [DecidableEq Kp]
    (mr : List (Kp × List Vp)) (key : Kp) (values : List Vp) :
    alookupD (extendBucket mr key values) key [] =
      alookupD mr key [] ++ values := by
  induction mr with
  | nil => simp [extendBucket, alookupD, alookup]
  | cons p ps ih =>
    by_cases hk : p.1 = key
    · simp [extendBucket, hk, alookupD, alookup]
    · simp only [extendBucket, hk, if_false, alookupD, alookup]
      exact ih

theorem alookupD_extendBucket_other [DecidableEq Kp]
    (mr : List (Kp × List Vp)) (key x : Kp) (values : List Vp)
    (h : ¬ key = x) :
    alookupD (extendBucket mr key values) x [] = alookupD mr x [] := by
  induction mr with
  | nil => simp [extendBucket, alookupD, alookup, h]
  | cons p ps ih =>
    by_cases hk : p.1 = key
    · have hpx : ¬ p.1 = x := by rw [hk]; exact h
      simp [extendBucket, hk, alookupD, alookup, hpx, h]
    · by_cases hx : p.1 = x
      · have hxk : ¬ x = key := fun he => hk (hx.trans he)
        simp [extendBucket, hk, alookupD, alookup, hx, hxk]
      · simp only [extendBucket, hk, if_false, alookupD, alookup, hx]
        exact ih

theorem alookupD_shuffle [DecidableEq Kp] (mo : List (Kp × List Vp)) :
    ∀ (mr : List (Kp × List Vp)) (x : Kp),
      alookupD (shuffle mr mo) x [] =
        alookupD mr x [] ++
          ((mo.filter fun p => decide (p.1 = x)).map Prod.snd).flatten := by
  induction mo with
  | nil =>
    intro mr x
    simp [shuffle]
  | cons q rest ih =>
    intro mr x
    obtain ⟨key, values⟩ := q
    rw [show shuffle mr ((key, values) :: rest) =
        shuffle (extendBucket mr key values) rest from rfl, ih]
    by_cases hx : key = x
    · subst hx
      rw [alookupD_extendBucket_self]
      simp [List.append_assoc]
    · rw [alookupD_extendBucket_other mr key x values hx]
      simp [hx]

theorem map_done_map_results [DecidableEq K] [DecidableEq Kp]
    (tm : TaskManager K V Kp Vp W) (k : K)
    (mo : Option (List (Kp × List Vp)))
    (h : containsKey tm.working_maps k = true) :
    (map_done tm (k, mo)).map_results =
      (match mo with
       | some m => shuffle tm.map_results m
       | none => tm.map_results) := by
  cases mo <;> simp only [map_done, h, if_true] <;> split_ifs <;> rfl

theorem map_results_fold [DecidableEq K] [DecidableEq Kp]
    (ds : List (K × Option (List (Kp × List Vp)))) :
    ∀ tm : TaskManager K V Kp Vp W, allAcceptedMaps tm ds → ∀ x : Kp,
      alookupD (ds.foldl map_done tm).map_results x [] =
        alookupD tm.map_results x [] ++
          (ds.map fun d => valuesFor x d.2).flatten := by
  induction ds with
  | nil =>
    intro tm _h x
    simp
  | cons d rest ih =>
    intro tm h x
    obtain ⟨hacc, hrest⟩ := h
    rw [List.foldl_cons, ih (map_done tm d) hrest x]
    obtain ⟨k, mo⟩ := d
    rw [map_done_map_results tm k mo hacc]
    cases mo with
    | none => simp [valuesFor]
    | some m =>
      rw [alookupD_shuffle]
      simp [valuesFor, List.append_assoc]

/-- C1: folding any sequence of accepted map results over the task manager
extends each shuffle bucket by exactly the per-map value lists for that
intermediate key, concatenated in acceptance order (a result carrying None
contributes nothing); hence, starting from the empty shuffle buffer
MAPPING begins with, the multiset of values the bucket hands to the
reducer for an intermediate key equals the multiset of all values emitted
for it by the accepted map results. -/
theorem map_results_concatenation [DecidableEq K] [DecidableEq Kp]
    (tm tm2 : TaskManager K V Kp Vp W) (x : Kp)
    (ds ds2 : List (K × Option (List (Kp × List Vp))))
    (hacc : allAcceptedMaps tm ds)
    (hacc2 : allAcceptedMaps tm2 ds2)
    (hempty : tm2.map_results = []) :
    alookupD (ds.foldl map_done tm).map_results x [] =
      alookupD tm.map_results x [] ++
        (ds.map fun d => valuesFor x d.2).flatten ∧
    (↑(alookupD (ds2.foldl map_done tm2).map_results x []) : Multiset Vp) =
      ↑((ds2.map fun d => valuesFor x d.2).flatten) := by
  constructor
  · exact map_results_fold ds tm hacc x
  · rw [map_results_fold ds2 tm2 hacc2 x, hempty]
    simp [alookupD, alookup]

theorem map_results_concatenation_witness :
    alookupD
        (([(0, some [(3, [7])])] :
            List (Nat × Option (List (Nat × List Nat)))).foldl map_done
          { (initTM [(0, 7)] 10 : TaskManager Nat Nat Nat Nat Nat) with
              working_maps := [(0, 0)] }).map_results 3 [] =
      alookupD ({ (initTM [(0, 7)] 10 : TaskManager Nat Nat Nat Nat Nat) with
          working_maps := [(0, 0)] }).map_results 3 [] ++
        (([(0, some [(3, [7])])] :
            List (Nat × Option (List (Nat × List Nat)))).map
          fun d => valuesFor 3 d.2).flatten ∧
    (↑(alookupD
        (([(0, some [(3, [7])])] :
            List (Nat × Option (List (Nat × List Nat)))).foldl map_done
          { (initTM [(0, 7)] 10 : TaskManager Nat Nat Nat Nat Nat) with
              working_maps := [(0, 0)] }).map_results 3 []) : Multiset Nat) =
      ↑((([(0, some [(3, [7])])] :
            List (Nat × Option (List (Nat × List Nat)))).map
          fun d => valuesFor 3 d.2).flatten) :=
  map_results_concatenation
    { initTM [(0, 7)] 10 with working_maps := [(0, 0)] }
    { initTM [(0, 7)] 10 with working_maps := [(0, 0)] }
    3 [(0, some [(3, [7])])] [(0, some [(3, [7])])]
    ⟨rfl, trivial⟩ ⟨rfl, trivial⟩ rfl

/-! ## Claim C8: identity mapper and reducer round-trip the datasource -/

theorem alookup_self_of_nodup [DecidableEq α] (l : List (α × β))
    (hnodup : (l.map Prod.fst).Nodup) :
    ∀ p ∈ l, alookup l p.1 = some p.2 := by
  induction l with
  | nil => intro p hp; exact absurd hp (List.not_mem_nil p)
  | cons q ps ih =>
    intro p hp
    rcases List.mem_cons.mp hp with h | h
    · subst h
      simp [alookup]
    · have hne : ¬ q.1 = p.1 := by
        intro he
        have hm : p.1 ∈ ps.map Prod.fst := List.mem_map.mpr ⟨p, h, rfl⟩
        rw [← he] at hm
        exact (List.nodup_cons.mp hnodup).1 hm
      simp only [alookup, hne, if_false]
      exact ih (List.nodup_cons.mp hnodup).2 p h

theorem containsKey_append [DecidableEq α] (l1 l2 : List (α × β)) (x : α) :
    containsKey (l1 ++ l2) x = (containsKey l1 x || containsKey l2 x) := by
  induction l1 with
  | nil => simp [containsKey]
  | cons p ps ih =>
    by_cases h : p.1 = x
    · simp [containsKey, h]
    · simp [containsKey, h, ih]

theorem extendBucket_not_mem [DecidableEq Kp] (mr : List (Kp × List Vp))
    (key : Kp) (values : List Vp) (h : containsKey mr key = false) :
    extendBucket mr key values = mr ++ [(key, values)] := by
  induction mr with
  | nil => rfl
  | cons p ps ih =>
    simp only [containsKey] at h
    by_cases hk : p.1 = key
    · simp [hk] at h
    · simp only [extendBucket, hk, if_false, List.cons_append,
        List.cons.injEq, true_and]
      exact ih (by simpa [hk] using h)

theorem runSeq_identity_map_phase [DecidableEq K] [Inhabited V]
    (ds0 : List (K × V)) (f nm ri : Nat) (rit : List (K × List V))
    (wr : List (K × Nat)) (res : List (K × List V)) :
    ∀ (suf : List (K × V)) (ndm nrp : Nat) (mrs : List (K × List V)),
      (∀ p ∈ suf, alookup ds0 p.1 = some p.2) →
      (∀ p ∈ suf, containsKey mrs p.1 = false) →
      (suf.map Prod.fst).Nodup →
      ∃ a b,
        runSeq identityMapper identityReducer (suf.length + f)
          (TaskManager.mk ds0 nm ndm TASK.MAPPING nrp ri (suf.map Prod.fst) []
            mrs rit wr res) =
        runSeq identityMapper identityReducer f
          (TaskManager.mk ds0 nm a TASK.MAPPING b ri [] []
            (mrs ++ suf.map fun p => (p.1, [p.2])) rit wr res) := by
  intro suf
  induction suf with
  | nil =>
    intro ndm nrp mrs _ _ _
    refine ⟨ndm, nrp, ?_⟩
    simp only [List.map_nil, List.append_nil]
    have hfz : ([] : List (K × V)).length + f = f := by simp
    rw [hfz]
  | cons p rest ih =>
    intro ndm nrp mrs hlookup hfresh hnodup
    have hmemp : p ∈ p :: rest := List.mem_cons.mpr (Or.inl rfl)
    have hext : extendBucket mrs p.1 [p.2] = mrs ++ [(p.1, [p.2])] :=
      extendBucket_not_mem mrs p.1 [p.2] (hfresh p hmemp)
    have hv : alookupD ds0 p.1 default = p.2 := by
      unfold alookupD
      rw [hlookup p hmemp]
      rfl
    have hstep2 : map_done
        (TaskManager.mk ds0 nm ndm TASK.MAPPING nrp ri (rest.map Prod.fst)
          [(p.1, 0)] mrs rit wr res)
        (p.1, some [(p.1, [p.2])]) =
        TaskManager.mk ds0 nm (ndm + 1) TASK.MAPPING
          (if nrp ≤ (ndm + 1) * 100 / nm then nrp + ri else nrp) ri
          (rest.map Prod.fst) [] (mrs ++ [(p.1, [p.2])]) rit wr res := by
      have hct : containsKey [(p.1, (0 : Nat))] p.1 = true := by
        simp [containsKey]
      simp only [map_done, hct, if_true]
      split_ifs with hrep <;> simp [shuffle, eraseKey, hext]
    have hnodup_tail := (List.nodup_cons.mp hnodup).2
    have hhead_not := (List.nodup_cons.mp hnodup).1
    have hlookup2 : ∀ q ∈ rest, alookup ds0 q.1 = some q.2 :=
      fun q hq => hlookup q (List.mem_cons.mpr (Or.inr hq))
    have hfresh2 : ∀ q ∈ rest,
        containsKey (mrs ++ [(p.1, [p.2])]) q.1 = false := by
      intro q hq
      rw [containsKey_append]
      have h1 : containsKey mrs q.1 = false :=
        hfresh q (List.mem_cons.mpr (Or.inr hq))
      have hne : ¬ p.1 = q.1 := by
        intro he
        have hm : q.1 ∈ rest.map Prod.fst := List.mem_map.mpr ⟨q, hq, rfl⟩
        rw [← he] at hm
        exact hhead_not hm
      have h2 : containsKey [(p.1, [p.2])] q.1 = false := by
        simp [containsKey, hne]
      rw [h1, h2]
      rfl
    obtain ⟨a, b, hIH⟩ := ih (ndm + 1)
      (if nrp ≤ (ndm + 1) * 100 / nm then nrp + ri else nrp)
      (mrs ++ [(p.1, [p.2])]) hlookup2 hfresh2 hnodup_tail
    refine ⟨a, b, ?_⟩
    have hfuel : (p :: rest).length + f = (rest.length + f) + 1 := by
      simp [List.length_cons]
      omega
    rw [hfuel]
    calc runSeq identityMapper identityReducer ((rest.length + f) + 1)
          (TaskManager.mk ds0 nm ndm TASK.MAPPING nrp ri
            ((p :: rest).map Prod.fst) [] mrs rit wr res)
        = runSeq identityMapper identityReducer (rest.length + f)
            (map_done
              (TaskManager.mk ds0 nm ndm TASK.MAPPING nrp ri
                (rest.map Prod.fst) [(p.1, 0)] mrs rit wr res)
              (p.1, some [(p.1, [alookupD ds0 p.1 default])])) := rfl
      _ = runSeq identityMapper identityReducer (rest.length + f)
            (map_done
              (TaskManager.mk ds0 nm ndm TASK.MAPPING nrp ri
                (rest.map Prod.fst) [(p.1, 0)] mrs rit wr res)
              (p.1, some [(p.1, [p.2])])) := by rw [hv]
      _ = runSeq identityMapper identityReducer (rest.length + f)
            (TaskManager.mk ds0 nm (ndm + 1) TASK.MAPPING
              (if nrp ≤ (ndm + 1) * 100 / nm then nrp + ri else nrp) ri
              (rest.map Prod.fst) [] (mrs ++ [(p.1, [p.2])]) rit wr res) := by
              rw [hstep2]
      _ = runSeq identityMapper identityReducer f
            (TaskManager.mk ds0 nm a TASK.MAPPING b ri [] []
              ((mrs ++ [(p.1, [p.2])]) ++ rest.map fun q => (q.1, [q.2]))
              rit wr res) := hIH
      _ = runSeq identityMapper identityReducer f
            (TaskManager.mk ds0 nm a TASK.MAPPING b ri [] []
              (mrs ++ (p :: rest).map fun q => (q.1, [q.2])) rit wr res) := by
              rw [List.append_assoc]
              rfl

theorem runSeq_identity_reduce_phase [DecidableEq K] [Inhabited V]
    (ds0 : List (K × V)) (nm ri : Nat) (mrs : List (K × List V)) :
    ∀ (suf : List (K × List V)) (ndm nrp : Nat) (acc : List (K × List V)),
      (∀ p ∈ suf, containsKey acc p.1 = false) →
      (suf.map Prod.fst).Nodup →
      ((runSeq identityMapper identityReducer (suf.length + 1)
          (TaskManager.mk ds0 nm ndm TASK.REDUCING nrp ri [] [] mrs suf []
            acc)).results = acc ++ suf ∧
       (runSeq identityMapper identityReducer (suf.length + 1)
          (TaskManager.mk ds0 nm ndm TASK.REDUCING nrp ri [] [] mrs suf []
            acc)).state = TASK.FINISHED) := by
  intro suf
  induction suf with
  | nil =>
    intro ndm nrp acc _ _
    constructor
    · show acc = acc ++ []
      rw [List.append_nil]
    · rfl
  | cons q rest ihq =>
    intro ndm nrp acc hfresh hnodup
    obtain ⟨k, vs⟩ := q
    have hmemh : (k, vs) ∈ (k, vs) :: rest := List.mem_cons.mpr (Or.inl rfl)
    have hset : setKey acc k vs = acc ++ [(k, vs)] :=
      setKey_of_not_mem acc k vs (hfresh (k, vs) hmemh)
    have hrd : reduce_done
        (TaskManager.mk ds0 nm ndm TASK.REDUCING nrp ri [] [] mrs rest
          [(k, 0)] acc)
        (k, some vs) =
        TaskManager.mk ds0 nm ndm TASK.REDUCING nrp ri [] [] mrs rest []
          (acc ++ [(k, vs)]) := by
      simp [reduce_done, containsKey, eraseKey, hset]
    have hfresh2 : ∀ p ∈ rest,
        containsKey (acc ++ [(k, vs)]) p.1 = false := by
      intro p hp
      rw [containsKey_append]
      have h1 : containsKey acc p.1 = false :=
        hfresh p (List.mem_cons.mpr (Or.inr hp))
      have hne : ¬ k = p.1 := by
        intro he
        have hm : p.1 ∈ rest.map Prod.fst := List.mem_map.mpr ⟨p, hp, rfl⟩
        rw [← he] at hm
        exact (List.nodup_cons.mp hnodup).1 hm
      have h2 : containsKey [(k, vs)] p.1 = false := by
        simp [containsKey, hne]
      rw [h1, h2]
      rfl
    obtain ⟨hres, hst⟩ := ihq ndm nrp (acc ++ [(k, vs)]) hfresh2
      (List.nodup_cons.mp hnodup).2
    have hfuel : ((k, vs) :: rest).length + 1 = (rest.length + 1) + 1 := by
      simp [List.length_cons]
    rw [hfuel]
    have hstep : runSeq identityMapper identityReducer ((rest.length + 1) + 1)
        (TaskManager.mk ds0 nm ndm TASK.REDUCING nrp ri [] [] mrs
          ((k, vs) :: rest) [] acc) =
        runSeq identityMapper identityReducer (rest.length + 1)
          (reduce_done
            (TaskManager.mk ds0 nm ndm TASK.REDUCING nrp ri [] [] mrs rest
              [(k, 0)] acc)
            (k, some vs)) := rfl
    rw [hstep, hrd]
    constructor
    · rw [hres, List.append_assoc]
      rfl
    · exact hst

theorem runSeq_identity_finish [DecidableEq K] [Inhabited V]
    (ds0 : List (K × V)) (nm ndm nrp ri : Nat) (mrs : List (K × List V))
    (rit : List (K × List V)) (wr : List (K × Nat)) (res : List (K × List V))
    (hnodup : (mrs.map Prod.fst).Nodup) :
    (runSeq identityMapper identityReducer (mrs.length + 1)
        (TaskManager.mk ds0 nm ndm TASK.MAPPING nrp ri [] [] mrs rit wr
          res)).results = mrs ∧
    (runSeq identityMapper identityReducer (mrs.length + 1)
        (TaskManager.mk ds0 nm ndm TASK.MAPPING nrp ri [] [] mrs rit wr
          res)).state = TASK.FINISHED := by
  cases mrs with
  | nil => exact ⟨rfl, rfl⟩
  | cons q rest =>
    obtain ⟨k, vs⟩ := q
    have hrd : reduce_done
        (TaskManager.mk ds0 nm ndm TASK.REDUCING nrp ri [] []
          ((k, vs) :: rest) rest [(k, 0)] [])
        (k, some vs) =
        TaskManager.mk ds0 nm ndm TASK.REDUCING nrp ri [] []
          ((k, vs) :: rest) rest [] [(k, vs)] := by
      simp [reduce_done, containsKey, eraseKey, setKey]
    have hfresh : ∀ p ∈ rest, containsKey [(k, vs)] p.1 = false := by
      intro p hp
      have hne : ¬ k = p.1 := by
        intro he
        have hm : p.1 ∈ rest.map Prod.fst := List.mem_map.mpr ⟨p, hp, rfl⟩
        rw [← he] at hm
        exact (List.nodup_cons.mp hnodup).1 hm
      simp [containsKey, hne]
    obtain ⟨hres, hst⟩ := runSeq_identity_reduce_phase ds0 nm ri
      ((k, vs) :: rest) rest ndm nrp [(k, vs)] hfresh
      (List.nodup_cons.mp hnodup).2
    have hfuel : ((k, vs) :: rest).length + 1 = (rest.length + 1) + 1 := by
      simp [List.length_cons]
    rw [hfuel]
    have hstep : runSeq identityMapper identityReducer ((rest.length + 1) + 1)
        (TaskManager.mk ds0 nm ndm TASK.MAPPING nrp ri [] []
          ((k, vs) :: rest) rit wr res) =
        runSeq identityMapper identityReducer (rest.length + 1)
          (reduce_done
            (TaskManager.mk ds0 nm ndm TASK.REDUCING nrp ri [] []
              ((k, vs) :: rest) rest [(k, 0)] [])
            (k, some vs)) := rfl
    rw [hstep, hrd]
    constructor
    · rw [hres]
      rfl
    · exact hst

/-- C8: running the job sequentially with IdentityMapper and
IdentityReducer over a datasource with unique keys (each map task completed
exactly once by the single worker) yields results whose key set equals the
datasource key set and which maps every key k to the one-element list
holding datasource k: the worker groups the single pair the identity
mapper emits into the singleton bucket, the shuffle stores that bucket
under k, and the identity reducer hands the list back unchanged. -/
theorem identity_mapreduce_roundtrip [DecidableEq K] [Inhabited V]
    (ds : List (K × V)) (ri : Nat) (k0 : K) (v0 : V) (vs0 : List V)
    (hnodup : (ds.map Prod.fst).Nodup) :
    groupPairs (identityMapper k0 v0) = [(k0, [v0])] ∧
    identityReducer k0 vs0 = some vs0 ∧
    (runSeq identityMapper identityReducer (2 * ds.length + 1)
        (initTM ds ri)).results = ds.map (fun p => (p.1, [p.2])) ∧
    ((runSeq identityMapper identityReducer (2 * ds.length + 1)
        (initTM ds ri)).results).map Prod.fst = ds.map Prod.fst := by
  have hkeys : ((ds.map fun p => (p.1, [p.2])).map Prod.fst) =
      ds.map Prod.fst := by
    rw [List.map_map]
    rfl
  have hres : (runSeq identityMapper identityReducer (2 * ds.length + 1)
      (initTM ds ri)).results = ds.map (fun p => (p.1, [p.2])) := by
    have hfuel : 2 * ds.length + 1 = ds.length + (ds.length + 1) := by omega
    rw [hfuel]
    have hinit : runSeq identityMapper identityReducer
        (ds.length + (ds.length + 1))
        (initTM ds ri : TaskManager K V K V (List V)) =
        runSeq identityMapper identityReducer (ds.length + (ds.length + 1))
          (TaskManager.mk ds ((ds.map Prod.fst).length) 0 TASK.MAPPING ri ri
            (ds.map Prod.fst) [] [] [] [] []) := by
      cases ds with
      | nil => rfl
      | cons p rest => rfl
    rw [hinit]
    have hlen : ds.length = (ds.map Prod.fst).length := by
      rw [List.length_map]
    obtain ⟨a, b, hA⟩ := runSeq_identity_map_phase ds (ds.length + 1)
      ((ds.map Prod.fst).length) ri [] [] [] ds 0 ri []
      (alookup_self_of_nodup ds hnodup)
      (fun p _ => rfl) hnodup
    rw [List.nil_append] at hA
    rw [hA]
    have hnodup2 : (((ds.map fun p => (p.1, [p.2])).map Prod.fst)).Nodup := by
      rw [hkeys]
      exact hnodup
    obtain ⟨hresF, _hstF⟩ := runSeq_identity_finish ds
      ((ds.map Prod.fst).length) a b ri (ds.map fun p => (p.1, [p.2]))
      [] [] [] hnodup2
    rw [show ds.length + 1 = (ds.map fun p => (p.1, [p.2])).length + 1 from by
      rw [List.length_map]]
    exact hresF
  refine ⟨rfl, rfl, hres, ?_⟩
  rw [hres, hkeys]

theorem identity_mapreduce_roundtrip_witness :
    (([(0, 5), (1, 7)] : List (Nat × Nat)).map Prod.fst).Nodup ∧
    groupPairs (identityMapper (0 : Nat) (5 : Nat)) = [(0, [5])] ∧
    identityReducer (0 : Nat) ([5] : List Nat) = some [5] ∧
    (runSeq identityMapper identityReducer 5
        (initTM [(0, 5), (1, 7)] 10 :
          TaskManager Nat Nat Nat Nat (List Nat))).results =
      [(0, [5]), (1, [7])] ∧
    ((runSeq identityMapper identityReducer 5
        (initTM [(0, 5), (1, 7)] 10 :
          TaskManager Nat Nat Nat Nat (List Nat))).results).map Prod.fst =
      [0, 1] := by
  have h := identity_mapreduce_roundtrip [(0, 5), (1, 7)] 10 0 5 [5] (by decide)
  exact ⟨by decide, h.1, h.2.1, h.2.2.1, h.2.2.2⟩

end Mince
